import Mathlib

/-!
Verification development for `profanityfilter` (file
`profanityfilter/profanityfilter.py`).

The Python module is embedded shallowly:

* Python's `re` library is modelled by a small regex AST (`Regex`), a parser
  `parseRegex` for the fragment of regex syntax that word-list entries use
  (literals, escape classes, `.`, postfix `* + ?`, alternation `|`, and the
  word-boundary assertions `\b`/`\B` that `censor` itself adds), and a
  backtracking matcher `mlens` that returns candidate match lengths in
  Python's greedy preference order.  Constructs outside the fragment
  (groups, classes, braces, anchors) make `parseRegex` return `none`,
  matching the fact that the corresponding claims never exercise them;
  `re.sub` is `reSub`, which scans left to right and replaces each
  leftmost-preferred match, continuing on the remainder of the original
  text (Python 3.7+ empty-match semantics).
* Quantifiers apply to single-character atoms in the modelled fragment, so
  a greedy star's candidate repetition counts are exactly the lengths
  `k, k-1, …, 0` where `k` is the maximal run of matching characters; this
  keeps every definition structurally recursive and kernel-evaluable.
* `ProfanityFilter` is the engine state (the fields of `__init__`; the
  file-path fields are omitted and the default word list loaded from
  `badwords.txt` — a data file not part of the sources — is simply the
  current value of the `censor_list` field, over which all theorems
  quantify).  Methods that Python runs by mutating `self` are written in
  state-passing style: they return their value paired with the resulting
  state.
* `inflection.pluralize` is a third-party collaborator, not code of this
  repository; it is passed as an explicit function parameter `pluralize`
  wherever `get_profane_words` needs it, and theorems quantify over it.
* Fallible operations (`re.compile` raising on a malformed pattern,
  `list.remove` raising on an absent element) return `Option`.
-/

/-- A word character for Python's `\b`/`\w`: letters, digits and underscore
(ASCII; all texts considered here are ASCII). -/
def isWordChar (c : Char) : Bool := c.isAlphanum || c == '_'

/-- The Perl character classes `\d \D \w \W \s \S`. -/
inductive PClass where
  | d | D | w | W | s | S
  deriving Repr, DecidableEq

/-- Python `\s` over ASCII. -/
def isSpaceChar (c : Char) : Bool :=
  c == ' ' || c == '\t' || c == '\n' || c == '\r' || c == '\x0b' || c == '\x0c'

def classMatch : PClass → Char → Bool
  | .d, c => c.isDigit
  | .D, c => !c.isDigit
  | .w, c => isWordChar c
  | .W, c => !isWordChar c
  | .s, c => isSpaceChar c
  | .S, c => !isSpaceChar c

/-- A single-character regex atom: a literal, `.`, or a Perl class.  The
modelled fragment allows quantifiers on such atoms only (quantified
groups/assertions fall outside the fragment and fail to parse, like every
other unsupported construct). -/
inductive RAtom where
  | lit (c : Char)
  | dot
  | cls (k : PClass)
  deriving Repr, DecidableEq

/-- Whether the atom matches one character.  Literals compare
case-insensitively: the engine always compiles with `re.IGNORECASE`
(ASCII case folding; all texts considered here are ASCII). -/
def atomMatch : RAtom → Char → Bool
  | .lit c, x => x.toLower == c.toLower
  | .dot, x => !(x == '\n')
  | .cls k, x => classMatch k x

/-- Regex AST for the fragment of Python `re` syntax used by the engine. -/
inductive Regex where
  | eps
  | atom (a : RAtom)
  | wb
  | nwb
  | seq (r1 r2 : Regex)
  | alt (r1 r2 : Regex)
  | star (a : RAtom)
  deriving Repr, DecidableEq

/-- The metacharacters that `parseAtom` refuses to read as literals. -/
def metaChar (c : Char) : Bool :=
  c == '*' || c == '+' || c == '?' || c == '\x7b' || c == '\x7d' || c == '[' ||
  c == ']' || c == '(' || c == ')' || c == '.' || c == '^' || c == '$' || c == '|'

/-- A parsed atom: either a quantifiable single-character atom or a
word-boundary assertion (`true` = `\b`, `false` = `\B`). -/
inductive PAtom where
  | ra (a : RAtom)
  | boundary (b : Bool)
  deriving Repr, DecidableEq

def PAtom.toRegex : PAtom → Regex
  | .ra a => .atom a
  | .boundary true => .wb
  | .boundary false => .nwb

/-- One atom of a regex: an escape, a literal character, or `.`.
Unsupported constructs (groups, classes, braces, anchors, unknown
alphanumeric escapes — all of which `re.compile` either rejects or which
fall outside the fragment exercised here) yield `none`. -/
def parseAtom : List Char → Option (PAtom × List Char)
  | [] => none
  | c :: rest =>
      if c == '\\' then
        match rest with
        | [] => none
        | e :: rest2 =>
            if e == 'b' then some (.boundary true, rest2)
            else if e == 'B' then some (.boundary false, rest2)
            else if e == 'd' then some (.ra (.cls .d), rest2)
            else if e == 'D' then some (.ra (.cls .D), rest2)
            else if e == 'w' then some (.ra (.cls .w), rest2)
            else if e == 's' then some (.ra (.cls .s), rest2)
            else if e == 'S' then some (.ra (.cls .S), rest2)
            else if e == 'W' then some (.ra (.cls .W), rest2)
            else if e.isAlphanum then none
            else some (.ra (.lit e), rest2)
      else if c == '.' then some (.ra .dot, rest)
      else if metaChar c then none
      else some (.ra (.lit c), rest)

/-- Attach a quantifier following the atom, if any.  A quantified
boundary assertion is "nothing to repeat". -/
def applyQuant (pa : PAtom) (rest : List Char) : Option (Regex × List Char) :=
  match rest with
  | [] => some (pa.toRegex, [])
  | q :: r2 =>
      if q == '*' then
        match pa with
        | .ra a => some (.star a, r2)
        | .boundary _ => none
      else if q == '+' then
        match pa with
        | .ra a => some (.seq (.atom a) (.star a), r2)
        | .boundary _ => none
      else if q == '?' then
        match pa with
        | .ra a => some (.alt (.atom a) .eps, r2)
        | .boundary _ => none
      else some (pa.toRegex, q :: r2)

/-- Parse a quantifier-decorated atom sequence up to `|` or the end,
right-nested.  `a+` is read as `a · a*` and `a?` as `a | ε`, which have the
same greedy preference order as Python's quantifiers.  Fuel: each step
consumes at least one character. -/
def parseSeqF : Nat → List Char → Option (Regex × List Char)
  | 0, _ => none
  | _ + 1, [] => some (.eps, [])
  | fuel + 1, c :: rest0 =>
      if c == '|' then some (.eps, c :: rest0)
      else
        match parseAtom (c :: rest0) with
        | none => none
        | some (pa, rest) =>
          match applyQuant pa rest with
          | none => none
          | some (r1, rest1) =>
            match parseSeqF fuel rest1 with
            | none => none
            | some (r, rem) => some (.seq r1 r, rem)

/-- Parse a full pattern: alternatives separated by `|`. -/
def parseAltF : Nat → List Char → Option Regex
  | 0, _ => none
  | fuel + 1, s =>
      match parseSeqF (s.length + 1) s with
      | none => none
      | some (r, []) => some r
      | some (r, _ :: rest) =>
          match parseAltF fuel rest with
          | none => none
          | some r2 => some (.alt r r2)

/-- Python `re.compile`, for the supported fragment. -/
def parseRegex (s : List Char) : Option Regex := parseAltF (s.length + 1) s

def isWordOpt : Option Char → Bool
  | none => false
  | some c => isWordChar c

/-- Whether `\b` holds between `prev` (the character preceding the current
position, `none` at the start of the text) and the rest of the text. -/
def atBoundary (prev : Option Char) (s : List Char) : Bool :=
  isWordOpt prev != isWordOpt s.head?

/-- The character preceding the position reached after consuming `n`
characters of `s`, given the character `prev` preceding `s`. -/
def prevAfter (prev : Option Char) (s : List Char) (n : Nat) : Option Char :=
  if n = 0 then prev else (s.take n).getLast?

/-- Length of the maximal prefix of `s` each of whose characters the atom
matches: the number of repetitions a greedy `a*` consumes first. -/
def atomRun (a : RAtom) : List Char → Nat
  | [] => 0
  | c :: rest => if atomMatch a c then atomRun a rest + 1 else 0

/-- Candidate match lengths of `r` at the start of `s`, in Python's
backtracking preference order (greedy: a star tries longer repetitions
first, an alternation tries its left branch first).  The head of the list
is the length Python's matcher reports at this position. -/
def mlens : Regex → List Char → Option Char → List Nat
  | .eps, _, _ => [0]
  | .atom _, [], _ => []
  | .atom a, x :: _, _ => if atomMatch a x then [1] else []
  | .wb, s, prev => if atBoundary prev s then [0] else []
  | .nwb, s, prev => if atBoundary prev s then [] else [0]
  | .seq r1 r2, s, prev =>
      (mlens r1 s prev).flatMap fun n =>
        (mlens r2 (s.drop n) (prevAfter prev s n)).map fun m => n + m
  | .alt r1 r2, s, prev => mlens r1 s prev ++ mlens r2 s prev
  | .star a, s, _ => (List.range (atomRun a s + 1)).reverse

/-- One pass of `re.sub`: scan left to right; at each position take the
matcher's preferred match, if any, emit the replacement and continue after
the matched part (after an empty match, copy one character, per
Python 3.7+).  Fuel `length + 1` suffices since every step consumes at
least one character or ends the scan. -/
def subScanF (r : Regex) (repl : List Char) : Nat → List Char → Option Char → List Char
  | 0, s, _ => s
  | _ + 1, [], prev =>
      match (mlens r [] prev).head? with
      | some 0 => repl
      | _ => []
  | fuel + 1, c :: rest, prev =>
      match (mlens r (c :: rest) prev).head? with
      | none => c :: subScanF r repl fuel rest (some c)
      | some 0 => repl ++ c :: subScanF r repl fuel rest (some c)
      | some (n + 1) =>
          repl ++ subScanF r repl fuel ((c :: rest).drop (n + 1))
            (((c :: rest).take (n + 1)).getLast?)

/-- Python `regex.sub(repl, s)` (with `count = 0`: every non-overlapping match). -/
def reSub (r : Regex) (repl : List Char) (s : List Char) : List Char :=
  subScanF r repl (s.length + 1) s none

/-- Function `is_regex_pattern` (module-level): `re.search` of the pattern
`\\[dDwWsSbB]|\*|\+|\?|\{|\}|\[|\]|\(|\)|\.|\^|\$|\\\|` — i.e. the string
contains one of the escapes `\d \D \w \W \s \S \b \B`, or one of the
single characters `* + ? { } [ ] ( ) . ^ $`, or the two-character
sequence `\|`.  The scan advances one position at a time, as `search`
does. -/
def regexIndicator (c : Char) : Bool :=
  c == '*' || c == '+' || c == '?' || c == '\x7b' || c == '\x7d' || c == '[' ||
  c == ']' || c == '(' || c == ')' || c == '.' || c == '^' || c == '$'

def hasRegexToken : List Char → Bool
  | [] => false
  | '\\' :: c :: rest =>
      if c == 'd' || c == 'D' || c == 'w' || c == 'W' || c == 's' || c == 'S'
          || c == 'b' || c == 'B' || c == '|' then true
      else hasRegexToken (c :: rest)
  | c :: rest => regexIndicator c || hasRegexToken rest

def is_regex_pattern (s : String) : Bool := hasRegexToken s.data

/-- The engine state: the keyword arguments of `__init__` plus the default
word list (`_censor_list`, loaded from the bundled `badwords.txt`; the
path fields are not modelled, the loaded contents are the field's value). -/
structure ProfanityFilter where
  custom_censor_list : List String
  extra_censor_list : List String
  no_word_boundaries : Bool
  censor_list : List String
  censor_char : String
  censor_length : Int
  deriving Repr, DecidableEq

/-- The sort key order of `get_profane_words`:
`key = (is_regex_pattern x, -len(x))`, ascending lexicographically
(so: plain words before regex-looking words; within a group, longer
first). -/
def wordKeyLe (a b : String) : Bool :=
  if is_regex_pattern a == is_regex_pattern b then decide (b.length ≤ a.length)
  else is_regex_pattern b

def wordLe (a b : String) : Prop := wordKeyLe a b = true

instance : DecidableRel wordLe := fun a b =>
  inferInstanceAs (Decidable (wordKeyLe a b = true))

/-- Python `list(set(xs))`: duplicates removed.  CPython's set iteration order is
unspecified; the model keeps first occurrences.  No claim depends on the
order of key-ties, which is all this choice can influence (the subsequent
sort is stable). -/
def dedupFirst (seen : List String) : List String → List String
  | [] => []
  | x :: xs => if x ∈ seen then dedupFirst seen xs else x :: dedupFirst (x :: seen) xs

/-- The base list: custom if non-empty (Python truthiness), else default. -/
def ProfanityFilter.base (pf : ProfanityFilter) : List String :=
  if pf.custom_censor_list.isEmpty then pf.censor_list else pf.custom_censor_list

/-- Method `get_profane_words`, state-passing (the method only reads `self`).
`pluralize` is the `inflection.pluralize` collaborator. -/
def ProfanityFilter.get_profane_words (pluralize : String → String)
    (pf : ProfanityFilter) : List String × ProfanityFilter :=
  let pw := pf.base
  let pw := pw ++ pf.extra_censor_list
  let pw := pw ++ pw.map pluralize
  let pw := dedupFirst [] pw
  (pw.insertionSort wordLe, pf)

/-- The pattern string for one word: the raw word, or wrapped in a
leading and a trailing backslash-b boundary assertion. -/
def ProfanityFilter.regexString (pf : ProfanityFilter) (word : String) : List Char :=
  if pf.no_word_boundaries then word.data
  else '\\' :: 'b' :: (word.data ++ ['\\', 'b'])

/-- The replacement text for one word:
`censor_char * (censor_length if censor_length > -1 else len(word))`. -/
def ProfanityFilter.replFor (pf : ProfanityFilter) (word : String) : List Char :=
  (List.replicate (if pf.censor_length > -1 then pf.censor_length.toNat else word.length)
    pf.censor_char.data).flatten

/-- One iteration of the loop body of `censor`: compile the word's pattern
and substitute.  A pattern `re.compile` rejects raises, modelled by
`none`. -/
def ProfanityFilter.censorWord (pf : ProfanityFilter) (res : Option String)
    (word : String) : Option String :=
  match res with
  | none => none
  | some text =>
      match parseRegex (pf.regexString word) with
      | none => none
      | some r => some (String.mk (reSub r (pf.replFor word) text.data))

/-- Method `censor`, state-passing. -/
def ProfanityFilter.censor (pluralize : String → String) (pf : ProfanityFilter)
    (input_text : String) : Option String × ProfanityFilter :=
  (((pf.get_profane_words pluralize).1).foldl pf.censorWord (some input_text), pf)

/-- Method `has_bad_word`: `censor(text) != text`. -/
def ProfanityFilter.has_bad_word (pluralize : String → String) (pf : ProfanityFilter)
    (text : String) : Option Bool × ProfanityFilter :=
  (((pf.censor pluralize text).1).map fun c => c != text, pf)

/-- Method `is_clean`: `not has_bad_word(input_text)`. -/
def ProfanityFilter.is_clean (pluralize : String → String) (pf : ProfanityFilter)
    (input_text : String) : Option Bool × ProfanityFilter :=
  (((pf.has_bad_word pluralize input_text).1).map fun b => !b, pf)

/-- Method `is_profane`: `has_bad_word(input_text)`. -/
def ProfanityFilter.is_profane (pluralize : String → String) (pf : ProfanityFilter)
    (input_text : String) : Option Bool × ProfanityFilter :=
  pf.has_bad_word pluralize input_text

/-- Method `remove_word`: removes the first `==`-equal occurrence from
the default list, raises `ValueError` (modelled `none`) if absent. -/
def ProfanityFilter.remove_word (pf : ProfanityFilter) (word : String) :
    Option ProfanityFilter :=
  if word ∈ pf.censor_list then
    some { pf with censor_list := pf.censor_list.erase word }
  else none

/-! ### No-match lemmas: a pattern that matches nowhere leaves the text
unchanged through `re.sub`, hence through the `censor` loop. -/

/-- No match of `r` starts at any position of `s` (with `prev` the
character preceding `s`). -/
def noMatchFrom (r : Regex) : List Char → Option Char → Bool
  | [], prev => (mlens r [] prev).isEmpty
  | c :: rest, prev => (mlens r (c :: rest) prev).isEmpty && noMatchFrom r rest (some c)

theorem subScanF_of_noMatch (r : Regex) (repl : List Char) :
    ∀ (fuel : Nat) (s : List Char) (prev : Option Char),
      noMatchFrom r s prev = true → subScanF r repl fuel s prev = s := by
  intro fuel
  induction fuel with
  | zero => intro s prev _; rfl
  | succ n ih =>
    intro s prev h
    cases s with
    | nil =>
      simp only [noMatchFrom, List.isEmpty_iff] at h
      simp [subScanF, h]
    | cons c rest =>
      simp only [noMatchFrom, Bool.and_eq_true, List.isEmpty_iff] at h
      simp only [subScanF, h.1, List.head?_nil]
      rw [ih rest (some c) h.2]

theorem reSub_of_noMatch (r : Regex) (repl : List Char) (s : List Char)
    (h : noMatchFrom r s none = true) : reSub r repl s = s :=
  subScanF_of_noMatch r repl (s.length + 1) s none h

theorem string_mk_data (t : String) : String.mk t.data = t := rfl

/-- The word's compiled pattern exists and matches nowhere in `t`. -/
def wordNoMatch (pf : ProfanityFilter) (word t : String) : Bool :=
  match parseRegex (pf.regexString word) with
  | none => false
  | some r => noMatchFrom r t.data none

theorem censorWord_of_noMatch (pf : ProfanityFilter) (w t : String)
    (h : wordNoMatch pf w t = true) : pf.censorWord (some t) w = some t := by
  unfold wordNoMatch at h
  unfold ProfanityFilter.censorWord
  cases hp : parseRegex (pf.regexString w) with
  | none => rw [hp] at h; exact absurd h (by simp)
  | some r =>
      rw [hp] at h
      simp only [reSub_of_noMatch r _ t.data h, string_mk_data]

theorem foldl_censorWord_of_noMatch (pf : ProfanityFilter) (t : String) :
    ∀ (L : List String), (∀ w ∈ L, wordNoMatch pf w t = true) →
      L.foldl pf.censorWord (some t) = some t := by
  intro L
  induction L with
  | nil => intro _; rfl
  | cons w ws ih =>
    intro h
    simp only [List.foldl_cons]
    rw [censorWord_of_noMatch pf w t (h w (by simp))]
    exact ih fun x hx => h x (by simp [hx])

/-- C7: Clean-text no-op: for every text T in which no pattern derived from
the effective word set matches (no profane substrings present under the
active boundary setting), censor(T) == T and is_clean(T) == true. -/
theorem claim_C7 (pluralize : String → String) (pf : ProfanityFilter) (t : String)
    (h : ∀ w ∈ (pf.get_profane_words pluralize).1, wordNoMatch pf w t = true) :
    (pf.censor pluralize t).1 = some t ∧ (pf.is_clean pluralize t).1 = some true := by
  have hc : (pf.censor pluralize t).1 = some t :=
    foldl_censorWord_of_noMatch pf t _ h
  refine ⟨hc, ?_⟩
  unfold ProfanityFilter.is_clean ProfanityFilter.has_bad_word
  simp [hc]

theorem claim_C7_witness :
    (∀ w ∈ ((⟨[], [], false, ["bad"], "_", -1⟩ : ProfanityFilter).get_profane_words
        (fun w => w ++ "s")).1,
      wordNoMatch ⟨[], [], false, ["bad"], "_", -1⟩ w "a perfectly clean text" = true) ∧
    ((⟨[], [], false, ["bad"], "_", -1⟩ : ProfanityFilter).censor (fun w => w ++ "s")
        "a perfectly clean text").1 = some "a perfectly clean text" ∧
    ((⟨[], [], false, ["bad"], "_", -1⟩ : ProfanityFilter).is_clean (fun w => w ++ "s")
        "a perfectly clean text").1 = some true :=
  ⟨by decide, (claim_C7 _ _ _ (by decide)).1, (claim_C7 _ _ _ (by decide)).2⟩

/-- C10: censor, has_bad_word, is_profane, is_clean and get_profane_words
are read-only: the engine state after the call equals the state before. -/
theorem claim_C10 (pluralize : String → String) (pf : ProfanityFilter) (t : String) :
    (pf.censor pluralize t).2 = pf ∧ (pf.has_bad_word pluralize t).2 = pf ∧
    (pf.is_profane pluralize t).2 = pf ∧ (pf.is_clean pluralize t).2 = pf ∧
    (pf.get_profane_words pluralize).2 = pf :=
  ⟨rfl, rfl, rfl, rfl, rfl⟩

/-- C4: has_bad_word and is_profane return true iff censor differs from the
text; is_clean is the negation, so is_profane == not is_clean. -/
theorem claim_C4 (pluralize : String → String) (pf : ProfanityFilter) (t c : String)
    (h : (pf.censor pluralize t).1 = some c) :
    ((pf.has_bad_word pluralize t).1 = some true ↔ c ≠ t) ∧
    ((pf.is_profane pluralize t).1 = some true ↔ c ≠ t) ∧
    ((pf.is_clean pluralize t).1 = some true ↔ c = t) ∧
    (pf.is_clean pluralize t).1 = ((pf.is_profane pluralize t).1).map (fun b => !b) := by
  unfold ProfanityFilter.is_clean ProfanityFilter.is_profane ProfanityFilter.has_bad_word
  simp [h, bne_iff_ne]

theorem claim_C4_witness :
    (((⟨["hello"], [], false, [], "_", -1⟩ : ProfanityFilter).censor id "hello world").1 =
      some "_____ world") ∧
    (((⟨["hello"], [], false, [], "_", -1⟩ : ProfanityFilter).has_bad_word id
      "hello world").1 = some true ↔ "_____ world" ≠ "hello world") :=
  ⟨by decide, (claim_C4 id _ "hello world" "_____ world" (by decide)).1⟩

/-! ### remove_word (C8) and negative censor_length (C9) -/

/-- C8: remove_word removes one exact-match occurrence of w from the
default WordList when present (the first one, all other state fields
unchanged), and fails (the NotFound-style error, modelled `none`) when w
is absent. -/
theorem claim_C8 (pf : ProfanityFilter) (w : String) :
    (w ∈ pf.censor_list →
      ∃ l1 l2, w ∉ l1 ∧ pf.censor_list = l1 ++ w :: l2 ∧
        pf.remove_word w = some { pf with censor_list := l1 ++ l2 }) ∧
    (w ∉ pf.censor_list → pf.remove_word w = none) := by
  constructor
  · intro hmem
    obtain ⟨l1, l2, hnot, heq, herase⟩ := List.exists_erase_eq hmem
    refine ⟨l1, l2, hnot, heq, ?_⟩
    unfold ProfanityFilter.remove_word
    rw [if_pos hmem, herase]
  · intro hmem
    unfold ProfanityFilter.remove_word
    rw [if_neg hmem]

theorem claim_C8_witness :
    (∃ l1 l2, "b" ∉ l1 ∧ ["a", "b", "a"] = l1 ++ "b" :: l2 ∧
      (⟨[], [], false, ["a", "b", "a"], "_", -1⟩ : ProfanityFilter).remove_word "b" =
        some ⟨[], [], false, l1 ++ l2, "_", -1⟩) ∧
    (⟨[], [], false, ["a", "b", "a"], "_", -1⟩ : ProfanityFilter).remove_word "zzz" = none :=
  ⟨(claim_C8 ⟨[], [], false, ["a", "b", "a"], "_", -1⟩ "b").1 (by decide),
   (claim_C8 ⟨[], [], false, ["a", "b", "a"], "_", -1⟩ "zzz").2 (by decide)⟩

theorem censorWord_neg (pf : ProfanityFilter) (h : pf.censor_length < 0) :
    ProfanityFilter.censorWord { pf with censor_length := -1 } = pf.censorWord := by
  funext res word
  unfold ProfanityFilter.censorWord ProfanityFilter.regexString ProfanityFilter.replFor
  have h1 : ¬(pf.censor_length > -1) := by omega
  have h2 : ¬((-1 : Int) > -1) := by omega
  simp [h1, h2]

/-- C9: every negative censor_length selects original-entry-length
replacement, exactly as censor_length = −1 does (the code tests
`censor_length > -1`). -/
theorem claim_C9 (pluralize : String → String) (pf : ProfanityFilter) (t : String)
    (h : pf.censor_length < 0) :
    (pf.censor pluralize t).1 =
      (ProfanityFilter.censor pluralize { pf with censor_length := -1 } t).1 := by
  show ((pf.get_profane_words pluralize).1).foldl pf.censorWord (some t) =
    ((pf.get_profane_words pluralize).1).foldl
      (ProfanityFilter.censorWord { pf with censor_length := -1 }) (some t)
  rw [censorWord_neg pf h]

theorem claim_C9_witness :
    ((⟨["bad"], [], false, [], "*", -5⟩ : ProfanityFilter).censor id "a bad day").1 =
      ((⟨["bad"], [], false, [], "*", -1⟩ : ProfanityFilter).censor id "a bad day").1 :=
  claim_C9 id ⟨["bad"], [], false, [], "*", -5⟩ "a bad day" (by decide)

/-! ### The ordering invariant of get_profane_words (C3) and
pluralization closure (C6) -/

theorem wordKeyLe_total (a b : String) : wordKeyLe a b = true ∨ wordKeyLe b a = true := by
  unfold wordKeyLe
  cases ha : is_regex_pattern a <;> cases hb : is_regex_pattern b <;> simp <;> omega

theorem wordKeyLe_trans (a b c : String) (h1 : wordKeyLe a b = true)
    (h2 : wordKeyLe b c = true) : wordKeyLe a c = true := by
  unfold wordKeyLe at h1 h2 ⊢
  cases ha : is_regex_pattern a <;> cases hb : is_regex_pattern b <;>
    cases hc : is_regex_pattern c <;>
    rw [ha, hb] at h1 <;> rw [hb, hc] at h2 <;> simp_all <;> omega

instance : IsTotal String wordLe :=
  ⟨fun a b => wordKeyLe_total a b⟩

instance : IsTrans String wordLe :=
  ⟨fun a b c h1 h2 => wordKeyLe_trans a b c h1 h2⟩

/-- C3: the sequence returned by get_profane_words always satisfies the
two-key ordering invariant: every plain word appears before every
regex-pattern-looking word, and within each of the two groups lengths are
non-increasing. -/
theorem claim_C3 (pluralize : String → String) (pf : ProfanityFilter) :
    ((pf.get_profane_words pluralize).1).Pairwise fun a b =>
      (is_regex_pattern a = false ∧ is_regex_pattern b = true) ∨
      (is_regex_pattern a = is_regex_pattern b ∧ b.length ≤ a.length) := by
  refine List.Pairwise.imp ?_ (List.sorted_insertionSort wordLe
    (dedupFirst [] ((pf.base ++ pf.extra_censor_list) ++
      (pf.base ++ pf.extra_censor_list).map pluralize)))
  intro a b hab
  unfold wordLe wordKeyLe at hab
  by_cases h : is_regex_pattern a = is_regex_pattern b
  · rw [if_pos (by simp [h])] at hab
    right
    exact ⟨h, by simpa using hab⟩
  · rw [if_neg (by simpa using h)] at hab
    left
    refine ⟨?_, hab⟩
    cases ha : is_regex_pattern a
    · rfl
    · rw [ha, hab] at h; exact absurd rfl h

theorem mem_dedupFirst (a : String) :
    ∀ (l seen : List String), a ∈ dedupFirst seen l ↔ a ∈ l ∧ a ∉ seen := by
  intro l
  induction l with
  | nil => intro seen; simp [dedupFirst]
  | cons x xs ih =>
    intro seen
    unfold dedupFirst
    by_cases hx : x ∈ seen
    · rw [if_pos hx, ih seen]
      simp only [List.mem_cons]
      constructor
      · rintro ⟨h1, h2⟩; exact ⟨Or.inr h1, h2⟩
      · rintro ⟨h1 | h1, h2⟩
        · subst h1; exact absurd hx h2
        · exact ⟨h1, h2⟩
    · rw [if_neg hx]
      simp only [List.mem_cons, ih (x :: seen), List.mem_cons]
      constructor
      · rintro (h | ⟨h1, h2⟩)
        · subst h; exact ⟨Or.inl rfl, hx⟩
        · exact ⟨Or.inr h1, fun hc => h2 (Or.inr hc)⟩
      · rintro ⟨h1 | h1, h2⟩
        · subst h1; exact Or.inl rfl
        · by_cases hax : a = x
          · subst hax; exact Or.inl rfl
          · exact Or.inr ⟨h1, fun hc => hc.elim (fun he => hax he) h2⟩

/-- C6: for every word w of the active base list (custom if non-empty,
else default) or of the extra list, the pluralized form of w is a member
of the effective word set returned by get_profane_words. -/
theorem claim_C6 (pluralize : String → String) (pf : ProfanityFilter) (w : String)
    (h : w ∈ pf.base ∨ w ∈ pf.extra_censor_list) :
    pluralize w ∈ (pf.get_profane_words pluralize).1 := by
  show pluralize w ∈ List.insertionSort wordLe
    (dedupFirst [] ((pf.base ++ pf.extra_censor_list) ++
      (pf.base ++ pf.extra_censor_list).map pluralize))
  rw [(List.perm_insertionSort wordLe _).mem_iff, mem_dedupFirst]
  refine ⟨?_, by simp⟩
  have hw : w ∈ pf.base ++ pf.extra_censor_list := by
    rcases h with h | h
    · exact List.mem_append_left _ h
    · exact List.mem_append_right _ h
  exact List.mem_append_right _ (List.mem_map_of_mem pluralize hw)

theorem claim_C6_witness :
    "slurs" ∈ ((⟨[], [], false, ["slur"], "_", -1⟩ : ProfanityFilter).get_profane_words
      (fun w => w ++ "s")).1 :=
  claim_C6 (fun w => w ++ "s") ⟨[], [], false, ["slur"], "_", -1⟩ "slur" (Or.inl (by decide))

/-! ### Idempotence (C2) -/

/-- C2 counterexample: with effective words "x" and "_ y" (both plain, and
the censor character "_" is not itself a dictionary word), censoring
"x y" yields "_ y", but censoring that output again yields "___": the
claimed idempotence fails even though censor_char is not a dictionary
word, because a censored output can form a new dictionary-word
occurrence. -/
theorem claim_C2_counterexample :
    ((⟨["x", "_ y"], [], false, [], "_", -1⟩ : ProfanityFilter).censor id "x y").1 =
      some "_ y" ∧
    ((⟨["x", "_ y"], [], false, [], "_", -1⟩ : ProfanityFilter).censor id "_ y").1 =
      some "___" ∧
    "_" ∉ ((⟨["x", "_ y"], [], false, [], "_", -1⟩ : ProfanityFilter).get_profane_words id).1 ∧
    ((⟨["x", "_ y"], [], false, [], "_", -1⟩ : ProfanityFilter).censor id "_ y").1 ≠
      some "_ y" := by
  refine ⟨by decide, by decide, by decide, by decide⟩

/-- C2 amended: censor(censor(T)) == censor(T) holds when no effective
word's pattern matches anywhere in the censored output censor(T); the
condition that censor_char is not itself a dictionary word/pattern is not
sufficient. -/
theorem claim_C2_amended (pluralize : String → String) (pf : ProfanityFilter) (t c : String)
    (h1 : (pf.censor pluralize t).1 = some c)
    (h2 : ∀ w ∈ (pf.get_profane_words pluralize).1, wordNoMatch pf w c = true) :
    (pf.censor pluralize c).1 = (pf.censor pluralize t).1 := by
  rw [h1]
  exact foldl_censorWord_of_noMatch pf c _ h2

theorem claim_C2_amended_witness :
    ((⟨["hello"], [], false, [], "_", -1⟩ : ProfanityFilter).censor id "_____ world").1 =
      ((⟨["hello"], [], false, [], "_", -1⟩ : ProfanityFilter).censor id "hello world").1 :=
  claim_C2_amended id ⟨["hello"], [], false, [], "_", -1⟩ "hello world" "_____ world"
    (by decide) (by decide)

/-! ### Replacement length (C1, C9): the code uses `len(word)` — the
dictionary entry — not the length of the matched text. -/

/-- C1 counterexample: the regex entry "a+" matches the four-character
string "aaaa", whose matched word string has length 4; the claim then
requires the replacement "____", but the code replaces it with
censor_char * len("a+") = "__". -/
theorem claim_C1_counterexample :
    ((⟨["a+"], [], true, [], "_", -1⟩ : ProfanityFilter).censor id "aaaa").1 = some "__" ∧
    ((⟨["a+"], [], true, [], "_", -1⟩ : ProfanityFilter).censor id "aaaa").1 ≠
      some "____" := by
  refine ⟨by decide, by decide⟩

/-- Step equations for `subScanF`, conditioned on the matcher's verdict. -/
theorem subScanF_cons_of_head_succ (r : Regex) (repl : List Char) (fuel : Nat) (c : Char)
    (rest : List Char) (prev : Option Char) (n : Nat)
    (h : (mlens r (c :: rest) prev).head? = some (n + 1)) :
    subScanF r repl (fuel + 1) (c :: rest) prev =
      repl ++ subScanF r repl fuel ((c :: rest).drop (n + 1))
        (((c :: rest).take (n + 1)).getLast?) := by
  simp only [subScanF]
  rw [h]

theorem subScanF_nil_of_head_none (r : Regex) (repl : List Char) (fuel : Nat)
    (prev : Option Char) (h : (mlens r [] prev).head? = none) :
    subScanF r repl (fuel + 1) [] prev = [] := by
  simp only [subScanF]
  rw [h]

/-- Behavior of `re.sub` when the preferred match at position 0 covers the whole text
and no empty match exists at the end: the whole text becomes one copy of
the replacement. -/
theorem reSub_of_fullMatch (r : Regex) (repl : List Char) (c : Char) (rest : List Char)
    (hhead : (mlens r (c :: rest) none).head? = some (rest.length + 1))
    (hend : (mlens r [] ((c :: rest).getLast?)).head? = none) :
    reSub r repl (c :: rest) = repl := by
  have hdrop : (c :: rest).drop (rest.length + 1) = [] := by simp
  have htake : (c :: rest).take (rest.length + 1) = c :: rest := by simp
  show subScanF r repl ((c :: rest).length + 1) (c :: rest) none = repl
  rw [List.length_cons,
    subScanF_cons_of_head_succ r repl (rest.length + 1) c rest none rest.length hhead,
    hdrop, htake, subScanF_nil_of_head_none r repl rest.length _ hend, List.append_nil]

theorem atomRun_lit_a : ∀ (k : Nat), atomRun (.lit 'a') (List.replicate k 'a') = k := by
  intro k
  induction k with
  | zero => rfl
  | succ k ih =>
    rw [List.replicate_succ]
    show (if atomMatch (.lit 'a') 'a' then atomRun (.lit 'a') (List.replicate k 'a') + 1
      else 0) = k + 1
    rw [if_pos (by decide), ih]

/-- On a run of n ≥ 1 letters 'a', the compiled pattern of the entry "a+"
(no boundaries) greedily matches the whole run. -/
theorem mlens_aplus_head (m : Nat) (prev : Option Char) :
    (mlens (Regex.seq (.seq (.atom (.lit 'a')) (.star (.lit 'a'))) .eps)
      (List.replicate (m + 1) 'a') prev).head? = some (m + 1) := by
  rw [List.replicate_succ]
  have ha : atomMatch (.lit 'a') 'a' = true := by decide
  simp [mlens, ha, atomRun_lit_a, prevAfter, List.range_succ, Nat.add_comm]

theorem mlens_aplus_nil (prev : Option Char) :
    mlens (Regex.seq (.seq (.atom (.lit 'a')) (.star (.lit 'a'))) .eps) [] prev = [] := rfl

/-- C1 amended: every match is replaced by censor_char repeated N times
with N = censor_length when censor_length ≥ 0, and otherwise N = the
length of the dictionary entry itself (here len("a+") = 2) — NOT the
length of the matched word string: for every run length n ≥ 1 the whole
matched run of n characters becomes the same replacement, independent of
n. -/
theorem claim_C1_amended (cl : Int) (n : Nat) (h : 1 ≤ n) :
    ((⟨["a+"], [], true, [], "_", cl⟩ : ProfanityFilter).censor id
      (String.mk (List.replicate n 'a'))).1 =
    some (String.mk (List.flatten (List.replicate
      (if cl > -1 then cl.toNat else ("a+" : String).length) ['_']))) := by
  obtain ⟨m, rfl⟩ : ∃ m, n = m + 1 := ⟨n - 1, by omega⟩
  show ProfanityFilter.censorWord ⟨["a+"], [], true, [], "_", cl⟩
      (some (String.mk (List.replicate (m + 1) 'a'))) "a+" = _
  have hp : parseRegex (ProfanityFilter.regexString ⟨["a+"], [], true, [], "_", cl⟩ "a+") =
      some (Regex.seq (.seq (.atom (.lit 'a')) (.star (.lit 'a'))) .eps) := rfl
  simp only [ProfanityFilter.censorWord]
  rw [hp]
  have hsub : reSub (Regex.seq (.seq (.atom (.lit 'a')) (.star (.lit 'a'))) .eps)
      (ProfanityFilter.replFor ⟨["a+"], [], true, [], "_", cl⟩ "a+")
      (List.replicate (m + 1) 'a') =
      ProfanityFilter.replFor ⟨["a+"], [], true, [], "_", cl⟩ "a+" := by
    rw [List.replicate_succ]
    refine reSub_of_fullMatch _ _ 'a' (List.replicate m 'a') ?_ ?_
    · rw [List.length_replicate, ← List.replicate_succ]
      exact mlens_aplus_head m none
    · rw [mlens_aplus_nil]
      rfl
  show some (String.mk (reSub _ _ (String.mk (List.replicate (m + 1) 'a')).data)) = _
  rw [show (String.mk (List.replicate (m + 1) 'a')).data = List.replicate (m + 1) 'a' from rfl]
  rw [hsub]
  rfl

theorem claim_C1_amended_witness :
    ((⟨["a+"], [], true, [], "_", -1⟩ : ProfanityFilter).censor id
      (String.mk (List.replicate 4 'a'))).1 =
      some (String.mk (List.flatten (List.replicate
        (if (-1 : Int) > -1 then (-1 : Int).toNat else ("a+" : String).length) ['_']))) :=
  claim_C1_amended (-1) 4 (by decide)

/-! ### Word-boundary behavior (C5): a plain dictionary word wrapped in
`\b…\b` cannot match strictly inside an all-word-character token. -/

/-- A character the parser reads as a literal: not a backslash and not a
metacharacter. -/
def plainLitChar (c : Char) : Bool := !(c == '\\' || metaChar c)

/-- The next character does not start a quantifier. -/
def notQuantHead : List Char → Bool
  | [] => true
  | q :: _ => !(q == '*' || q == '+' || q == '?')

/-- The right-nested literal chain the parser produces for a plain word,
ending in the continuation `k`. -/
def litChain (cs : List Char) (k : Regex) : Regex :=
  cs.foldr (fun c r => Regex.seq (.atom (.lit c)) r) k

/-- Case-insensitive prefix comparison (the matcher's view of a literal
chain). -/
def ciPre : List Char → List Char → Bool
  | [], _ => true
  | _ :: _, [] => false
  | c :: cs, x :: xs => (x.toLower == c.toLower) && ciPre cs xs

/-- Case-insensitive equality of a word with a whole text. -/
def ciFull (w s : List Char) : Bool := ciPre w s && (w.length == s.length)

theorem plainLit_ne (c x : Char) (h : plainLitChar c = true)
    (hx : plainLitChar x = false) : (c == x) = false := by
  cases hq : c == x
  · rfl
  · rw [show c = x from by simpa using hq, hx] at h
    exact absurd h (by simp)

theorem plainLit_not_meta (c : Char) (h : plainLitChar c = true) : metaChar c = false := by
  simp only [plainLitChar, Bool.not_eq_eq_eq_not, Bool.not_true, Bool.or_eq_false_iff] at h
  exact h.2

theorem applyQuant_of_notQuant (pa : PAtom) (rest : List Char)
    (h : notQuantHead rest = true) : applyQuant pa rest = some (pa.toRegex, rest) := by
  cases rest with
  | nil => rfl
  | cons q r2 =>
    simp only [notQuantHead, Bool.not_eq_eq_eq_not, Bool.not_true, Bool.or_eq_false_iff] at h
    obtain ⟨⟨h1, h2⟩, h3⟩ := h
    simp only [applyQuant, h1, h2, h3]
    rfl

theorem parseAtom_plain (c : Char) (rest : List Char) (h : plainLitChar c = true) :
    parseAtom (c :: rest) = some (.ra (.lit c), rest) := by
  have hb : (c == '\\') = false := plainLit_ne c '\\' h (by decide)
  have hd : (c == '.') = false := plainLit_ne c '.' h (by decide)
  have hm : metaChar c = false := plainLit_not_meta c h
  simp only [parseAtom, hb, hd, hm]
  rfl

theorem notQuantHead_of_plainLit (c : Char) (rest : List Char)
    (h : plainLitChar c = true) : notQuantHead (c :: rest) = true := by
  have h1 : (c == '*') = false := plainLit_ne c '*' h (by decide)
  have h2 : (c == '+') = false := plainLit_ne c '+' h (by decide)
  have h3 : (c == '?') = false := plainLit_ne c '?' h (by decide)
  simp [notQuantHead, h1, h2, h3]

theorem parseSeqF_litChain (tail : List Char) (K : Regex) (t0 : Nat)
    (htail : ∀ f : Nat, parseSeqF (f + t0) tail = some (K, []))
    (hq : notQuantHead tail = true) :
    ∀ (w : List Char), (∀ c ∈ w, plainLitChar c = true) →
      ∀ f : Nat, parseSeqF (f + w.length + t0) (w ++ tail) = some (litChain w K, []) := by
  intro w
  induction w with
  | nil =>
    intro _ f
    simp only [List.length_nil, Nat.add_zero, List.nil_append]
    exact htail f
  | cons c cs ih =>
    intro hpl f
    have hc : plainLitChar c = true := hpl c (by simp)
    have hcs : ∀ x ∈ cs, plainLitChar x = true := fun x hx => hpl x (by simp [hx])
    have harith : f + (c :: cs).length + t0 = (f + cs.length + t0) + 1 := by
      simp [List.length_cons]; omega
    rw [harith, List.cons_append]
    simp only [parseSeqF]
    rw [if_neg (by rw [plainLit_ne c '|' hc (by decide)]; exact Bool.false_ne_true)]
    rw [parseAtom_plain c _ hc]
    have hnq : notQuantHead (cs ++ tail) = true := by
      cases cs with
      | nil => simpa using hq
      | cons c2 cs2 =>
        rw [List.cons_append]
        exact notQuantHead_of_plainLit c2 _ (hcs c2 (by simp))
    show (match applyQuant (.ra (.lit c)) (cs ++ tail) with
      | none => none
      | some (r1, rest1) =>
        match parseSeqF (f + cs.length + t0) rest1 with
        | none => none
        | some (r, rem) => some (Regex.seq r1 r, rem)) = some (litChain (c :: cs) K, [])
    rw [applyQuant_of_notQuant _ _ hnq]
    show (match parseSeqF (f + cs.length + t0) (cs ++ tail) with
      | none => none
      | some (r, rem) => some (Regex.seq (.atom (.lit c)) r, rem)) =
        some (litChain (c :: cs) K, [])
    rw [ih hcs f]
    rfl

/-- The compiled pattern of a plain word with boundary anchoring. -/
theorem parseRegex_boundaries (w : List Char) (hw : ∀ c ∈ w, plainLitChar c = true) :
    parseRegex ('\\' :: 'b' :: (w ++ ['\\', 'b'])) =
      some (.seq .wb (litChain w (.seq .wb .eps))) := by
  have hnq : notQuantHead (w ++ ['\\', 'b']) = true := by
    cases w with
    | nil => rfl
    | cons c cs =>
      rw [List.cons_append]
      exact notQuantHead_of_plainLit c _ (hw c (by simp))
  have hseq : parseSeqF (('\\' :: 'b' :: (w ++ ['\\', 'b'])).length)
      (w ++ ['\\', 'b']) = some (litChain w (.seq .wb .eps), []) := by
    have hlen : ('\\' :: 'b' :: (w ++ ['\\', 'b'])).length = 2 + w.length + 2 := by
      simp [List.length_cons, List.length_append]
      omega
    rw [hlen]
    exact parseSeqF_litChain ['\\', 'b'] (.seq .wb .eps) 2 (fun f => rfl) rfl w hw 2
  have hseq2 : parseSeqF (('\\' :: 'b' :: (w ++ ['\\', 'b'])).length + 1)
      ('\\' :: 'b' :: (w ++ ['\\', 'b'])) =
      some (.seq .wb (litChain w (.seq .wb .eps)), []) := by
    simp only [parseSeqF]
    rw [if_neg (by decide)]
    rw [show parseAtom ('\\' :: 'b' :: (w ++ ['\\', 'b'])) =
      some (.boundary true, w ++ ['\\', 'b']) from rfl]
    show (match applyQuant (.boundary true) (w ++ ['\\', 'b']) with
      | none => none
      | some (r1, rest1) =>
        match parseSeqF (('\\' :: 'b' :: (w ++ ['\\', 'b'])).length) rest1 with
        | none => none
        | some (r, rem) => some (Regex.seq r1 r, rem)) = _
    rw [applyQuant_of_notQuant _ _ hnq]
    show (match parseSeqF (('\\' :: 'b' :: (w ++ ['\\', 'b'])).length) (w ++ ['\\', 'b']) with
      | none => none
      | some (r, rem) => some (Regex.seq .wb r, rem)) = _
    rw [hseq]
  unfold parseRegex
  simp only [parseAltF]
  rw [hseq2]

/-- The compiled pattern of a plain word without boundaries. -/
theorem parseRegex_plain (w : List Char) (hw : ∀ c ∈ w, plainLitChar c = true) :
    parseRegex w = some (litChain w .eps) := by
  have hseq : parseSeqF (w.length + 1) w = some (litChain w .eps, []) := by
    have h0 : w.length + 1 = 0 + w.length + 1 := by omega
    rw [h0, show w = w ++ [] from by simp]
    have := parseSeqF_litChain [] .eps 1 (fun f => rfl) rfl w ?_ 0
    · simpa using this
    · intro c hc
      exact hw c (by simpa using hc)
  unfold parseRegex
  simp only [parseAltF]
  rw [hseq]

theorem ciPre_length_le : ∀ (cs s : List Char), ciPre cs s = true → cs.length ≤ s.length := by
  intro cs
  induction cs with
  | nil => intro s _; simp
  | cons c cs ih =>
    intro s h
    cases s with
    | nil => exact absurd h (by simp [ciPre])
    | cons x xs =>
      simp only [ciPre, Bool.and_eq_true] at h
      simpa using ih xs h.2

theorem prevAfter_cons (m : Nat) (x : Char) (xs : List Char) (prev : Option Char)
    (h : m ≤ xs.length) : prevAfter prev (x :: xs) (m + 1) = prevAfter (some x) xs m := by
  unfold prevAfter
  cases m with
  | zero => simp
  | succ k =>
    rw [if_neg (by omega), if_neg (by omega)]
    cases xs with
    | nil => simp at h
    | cons y ys =>
      rw [List.take_succ_cons, List.take_succ_cons,
        List.getLast?_cons_cons]

/-- The matcher on a literal chain: it consumes exactly the word (when the
word is a case-insensitive prefix of the text) and hands over to the
continuation. -/
theorem mlens_litChain : ∀ (cs : List Char) (k : Regex) (s : List Char) (prev : Option Char),
    mlens (litChain cs k) s prev =
      if ciPre cs s then
        (mlens k (s.drop cs.length) (prevAfter prev s cs.length)).map fun m => cs.length + m
      else [] := by
  intro cs
  induction cs with
  | nil =>
    intro k s prev
    simp [litChain, ciPre, prevAfter]
  | cons c cs ih =>
    intro k s prev
    show mlens (Regex.seq (.atom (.lit c)) (litChain cs k)) s prev = _
    cases s with
    | nil =>
      simp [mlens, ciPre]
    | cons x xs =>
      simp only [mlens]
      cases hx : atomMatch (.lit c) x with
      | false =>
        have hci : ciPre (c :: cs) (x :: xs) = false := by
          simp only [ciPre]
          simp only [atomMatch] at hx
          rw [hx, Bool.false_and]
        rw [hci]
        simp
      | true =>
        have hci : ciPre (c :: cs) (x :: xs) = ciPre cs xs := by
          simp only [ciPre]
          simp only [atomMatch] at hx
          rw [hx, Bool.true_and]
        rw [hci, if_pos rfl]
        have hdrop1 : (x :: xs).drop 1 = xs := rfl
        have hprev1 : prevAfter prev (x :: xs) 1 = some x := by
          unfold prevAfter
          simp
        simp only [List.flatMap_cons, List.flatMap_nil, List.append_nil, hdrop1, hprev1]
        rw [ih k xs (some x)]
        cases hp : ciPre cs xs with
        | false => simp
        | true =>
          rw [if_pos rfl]
          have hle : cs.length ≤ xs.length := ciPre_length_le cs xs hp
          simp only [List.length_cons]
          rw [List.drop_succ_cons, prevAfter_cons cs.length x xs prev hle]
          simp only [List.map_map]
          congr 1
          funext m
          simp only [Function.comp_apply]
          omega

theorem mlens_seq_wb (X : Regex) (s : List Char) (prev : Option Char) :
    mlens (Regex.seq .wb X) s prev = if atBoundary prev s then mlens X s prev else [] := by
  simp only [mlens]
  cases hb : atBoundary prev s
  · simp
  · simp [prevAfter]

theorem mlens_wb_eps (s : List Char) (prev : Option Char) :
    mlens (Regex.seq .wb .eps) s prev = if atBoundary prev s then [0] else [] := by
  rw [mlens_seq_wb]
  cases atBoundary prev s <;> simp [mlens]

/-- Inside an all-word-character text (previous character a word
character), the boundary-anchored pattern of a non-empty word has no
match. -/
theorem mlens_PB_interior (w : List Char) (hw : w ≠ []) (s : List Char)
    (hs : s.all isWordChar = true) (p : Char) (hp : isWordChar p = true) :
    mlens (Regex.seq .wb (litChain w (.seq .wb .eps))) s (some p) = [] := by
  rw [mlens_seq_wb]
  cases s with
  | nil =>
    have hb : atBoundary (some p) [] = true := by
      simp [atBoundary, isWordOpt, hp]
    rw [hb, if_pos rfl, mlens_litChain]
    cases w with
    | nil => exact absurd rfl hw
    | cons c cs => simp [ciPre]
  | cons x xs =>
    have hx : isWordChar x = true := by
      have := List.all_eq_true.mp hs x (by simp)
      exact this
    have hb : atBoundary (some p) (x :: xs) = false := by
      simp [atBoundary, isWordOpt, hp, hx]
    rw [hb]
    simp

/-- At the start of an all-word-character text that the word does not
(case-insensitively) equal in full, the boundary-anchored pattern has no
match either: the trailing boundary fails mid-token. -/
theorem mlens_PB_start (w s : List Char) (hw : w ≠ [])
    (hs : s.all isWordChar = true) (hfull : ciFull w s = false) :
    mlens (Regex.seq .wb (litChain w (.seq .wb .eps))) s none = [] := by
  rw [mlens_seq_wb]
  cases s with
  | nil =>
    have hb : atBoundary none [] = false := by simp [atBoundary, isWordOpt]
    rw [hb]
    simp
  | cons x xs =>
    have hx : isWordChar x = true := List.all_eq_true.mp hs x (by simp)
    have hb : atBoundary none (x :: xs) = true := by
      simp [atBoundary, isWordOpt, hx]
    rw [hb, if_pos rfl, mlens_litChain]
    cases hp : ciPre w (x :: xs) with
    | false => simp
    | true =>
      rw [if_pos rfl]
      have hle : w.length ≤ (x :: xs).length := ciPre_length_le w (x :: xs) hp
      have hne : w.length ≠ (x :: xs).length := by
        intro hcontra
        rw [ciFull, hp, Bool.true_and] at hfull
        rw [hcontra] at hfull
        simp at hfull
      have hlt : w.length < (x :: xs).length := by omega
      have h1 : isWordOpt (prevAfter none (x :: xs) w.length) = true := by
        unfold prevAfter
        rw [if_neg (by cases w with | nil => exact absurd rfl hw | cons c cs => simp)]
        have htne : (x :: xs).take w.length ≠ [] := by
          rw [Ne, List.take_eq_nil_iff]
          push_neg
          constructor
          · cases w with | nil => exact absurd rfl hw | cons c cs => simp
          · simp
        rw [List.getLast?_eq_getLast _ htne]
        have hmem : ((x :: xs).take w.length).getLast htne ∈ (x :: xs).take w.length :=
          List.getLast_mem htne
        have : ((x :: xs).take w.length).getLast htne ∈ x :: xs :=
          List.take_subset _ _ hmem
        simpa [isWordOpt] using List.all_eq_true.mp hs _ this
      have h2 : isWordOpt ((x :: xs)[w.length]?) = true := by
        rw [List.getElem?_eq_getElem hlt]
        simpa [isWordOpt] using
          List.all_eq_true.mp hs ((x :: xs)[w.length]) (List.getElem_mem hlt)
      rw [mlens_wb_eps]
      have hb2 : atBoundary (prevAfter none (x :: xs) w.length)
          ((x :: xs).drop w.length) = false := by
        simp [atBoundary, h1, h2]
      rw [hb2]
      simp

theorem noMatchFrom_PB_aux (w : List Char) (hw : w ≠ []) :
    ∀ (s : List Char), s.all isWordChar = true → ∀ (p : Char), isWordChar p = true →
      noMatchFrom (Regex.seq .wb (litChain w (.seq .wb .eps))) s (some p) = true := by
  intro s
  induction s with
  | nil =>
    intro _ p hp
    simp [noMatchFrom, mlens_PB_interior w hw [] (by simp) p hp]
  | cons c rest ih =>
    intro hs p hp
    have hc : isWordChar c = true := List.all_eq_true.mp hs c (by simp)
    have hrest : rest.all isWordChar = true := by
      rw [List.all_eq_true]
      intro u hu
      exact List.all_eq_true.mp hs u (by simp [hu])
    simp [noMatchFrom, mlens_PB_interior w hw (c :: rest) hs p hp, ih hrest c hc]

theorem noMatchFrom_PB (w s : List Char) (hw : w ≠ [])
    (hs : s.all isWordChar = true) (hfull : ciFull w s = false) :
    noMatchFrom (Regex.seq .wb (litChain w (.seq .wb .eps))) s none = true := by
  cases s with
  | nil => simp [noMatchFrom, mlens_PB_start w [] hw (by simp) hfull]
  | cons c rest =>
    have hc : isWordChar c = true := List.all_eq_true.mp hs c (by simp)
    have hrest : rest.all isWordChar = true := by
      rw [List.all_eq_true]
      intro u hu
      exact List.all_eq_true.mp hs u (by simp [hu])
    simp [noMatchFrom, mlens_PB_start w (c :: rest) hw hs hfull,
      noMatchFrom_PB_aux w hw rest hrest c hc]

theorem censorWord_plain (pf : ProfanityFilter) (w t : String)
    (hnwb : pf.no_word_boundaries = false)
    (hw : w.data ≠ []) (hpl : w.data.all plainLitChar = true)
    (hfull : ciFull w.data t.data = false) (ht : t.data.all isWordChar = true) :
    pf.censorWord (some t) w = some t := by
  have hplm : ∀ c ∈ w.data, plainLitChar c = true := List.all_eq_true.mp hpl
  have hreg : pf.regexString w = '\\' :: 'b' :: (w.data ++ ['\\', 'b']) := by
    unfold ProfanityFilter.regexString
    rw [hnwb]
    simp
  simp only [ProfanityFilter.censorWord]
  rw [hreg, parseRegex_boundaries w.data hplm]
  show some (String.mk (reSub _ _ t.data)) = some t
  rw [reSub_of_noMatch _ _ t.data (noMatchFrom_PB w.data t.data hw ht hfull), string_mk_data]

theorem foldl_censorWord_fix (pf : ProfanityFilter) (t : String) :
    ∀ (L : List String), (∀ w ∈ L, pf.censorWord (some t) w = some t) →
      L.foldl pf.censorWord (some t) = some t := by
  intro L
  induction L with
  | nil => intro _; rfl
  | cons w ws ih =>
    intro h
    simp only [List.foldl_cons]
    rw [h w (by simp)]
    exact ih fun x hx => h x (by simp [hx])

/-- C5: with word boundaries on, a dictionary word occurring only as a
strict substring of a single longer all-word-character token is never
censored — censor returns the text unchanged (first conjunct, for every
state whose effective words are plain non-empty literal entries none of
which equals the whole token); with no_word_boundaries = true, the same
dictionary word is matched mid-token and censored (second conjunct, at the
spec's instance: "word" inside "scaffoldwordwork"). -/
theorem claim_C5 :
    (∀ (pluralize : String → String) (pf : ProfanityFilter) (t : String),
      pf.no_word_boundaries = false →
      t.data.all isWordChar = true →
      (∀ w ∈ (pf.get_profane_words pluralize).1,
        w.data ≠ [] ∧ w.data.all plainLitChar = true ∧ ciFull w.data t.data = false) →
      (pf.censor pluralize t).1 = some t) ∧
    ((⟨["word"], [], true, [], "_", -1⟩ : ProfanityFilter).censor id "scaffoldwordwork").1 =
      some "scaffold____work" := by
  constructor
  · intro pluralize pf t hnwb ht h
    refine foldl_censorWord_fix pf t _ fun w hwmem => ?_
    obtain ⟨h1, h2, h3⟩ := h w hwmem
    exact censorWord_plain pf w t hnwb h1 h2 h3 ht
  · decide

theorem claim_C5_witness :
    ((⟨["word"], [], false, [], "_", -1⟩ : ProfanityFilter).censor id "scaffoldwordwork").1 =
      some "scaffoldwordwork" :=
  claim_C5.1 id ⟨["word"], [], false, [], "_", -1⟩ "scaffoldwordwork"
    (by decide) (by decide) (by decide)
